import Mathlib

/-!
Verification of the vector-search repository's core components against its
specification.  Text is modelled as `List Char`, JavaScript numbers used as
indices are modelled as `Int` (they can go negative in the chunking loop),
and fallible operations return `Option` / `Except`.  Scores and similarity
values are modelled as rationals.
-/

set_option maxRecDepth 8000

namespace VectorSearchProj

/-! ## JavaScript string primitives used by the chunker -/

/-- The whitespace class matched by the chunker's regular expressions
(the ASCII part of JavaScript's whitespace class; the cleaned text only
ever contains plain spaces). -/
def isJsWs (c : Char) : Bool :=
  c == ' ' || c == '\t' || c == '\n' || c == '\r' || c == '\x0b' || c == '\x0c'

/-- JavaScript `String.prototype.trim`: drop whitespace from both ends. -/
def trimList (s : List Char) : List Char :=
  ((s.dropWhile isJsWs).reverse.dropWhile isJsWs).reverse

/-- Helper for `collapseWs`: the boolean records whether the previous
character was whitespace (in which case further whitespace is dropped). -/
def collapseAux : Bool → List Char → List Char
  | _, [] => []
  | prevWs, c :: rest =>
    if isJsWs c then
      if prevWs then collapseAux true rest else ' ' :: collapseAux true rest
    else c :: collapseAux false rest

/-- JavaScript `replace(/\s+/g, ' ')`: every maximal run of whitespace
becomes a single space. -/
def collapseWs (s : List Char) : List Char := collapseAux false s

/-- The cleaning step `text.trim().replace(/\s+/g, ' ')` from `TextChunker.chunkText`. -/
def cleanText (s : List Char) : List Char := collapseWs (trimList s)

/-- JavaScript `String.prototype.substring` with its clamping semantics:
negative indices are clamped to `0`, indices beyond the length are clamped
to the length, and the two indices are swapped when out of order. -/
def jsSubstring (s : List Char) (a b : Int) : List Char :=
  let n : Int := s.length
  let a' := min (max a 0) n
  let b' := min (max b 0) n
  let lo := min a' b'
  let hi := max a' b'
  (s.take hi.toNat).drop lo.toNat

/-- JavaScript `String.prototype.lastIndexOf`: the largest index at which
`t` occurs in `s`, or `-1` when it does not occur. -/
def lastIndexOf (s t : List Char) : Int :=
  match ((List.range (s.length + 1)).filter
      (fun i => decide ((s.drop i).take t.length = t))).getLast? with
  | some i => (i : Int)
  | none => -1

/-- All (leftmost, non-overlapping) matches of the regular expression
`[.!?]\s` in `s`, in order, as produced by `match(/[.!?]\s/g)`. -/
def sentMatches : List Char → List (List Char)
  | a :: b :: rest =>
    if (a == '.' || a == '!' || a == '?') && isJsWs b then
      [a, b] :: sentMatches rest
    else
      sentMatches (b :: rest)
  | _ => []

/-! ## TextChunker (src/unnamed/part_002) -/

/-- The body of the `while` loop of `TextChunker.chunkText` that computes
the right edge `end` of the current window: start from `start + chunkSize`
and, when that is not past the end of the text, move back to just after the
last sentence-terminal punctuation found in the final 100 characters of the
window. -/
def computeEnd (cleaned : List Char) (cs : Int) (start : Int) : Int :=
  if start + cs < (cleaned.length : Int) then
    match (sentMatches (jsSubstring cleaned (max (start + cs - 100) start) (start + cs))).getLast? with
    | none => start + cs
    | some m =>
      if lastIndexOf (jsSubstring cleaned (max (start + cs - 100) start) (start + cs)) m = -1
      then start + cs
      else max (start + cs - 100) start
        + lastIndexOf (jsSubstring cleaned (max (start + cs - 100) start) (start + cs)) m + 1
  else start + cs

/-- The `while` loop of `TextChunker.chunkText`, with an explicit fuel
parameter: `none` means the loop did not finish within `fuel` iterations
(so `(∀ fuel, chunkLoop … fuel s = none)` models non-termination).  Each
iteration emits `substring(start, end).trim()` when non-empty and advances
`start` to `end - overlap`; the loop stops as soon as `start` reaches the
length of the text. -/
def chunkLoop (cleaned : List Char) (cs ov : Int) : Nat → Int → Option (List (List Char))
  | 0, start => if start < (cleaned.length : Int) then none else some []
  | fuel + 1, start =>
    if start < (cleaned.length : Int) then
      (chunkLoop cleaned cs ov fuel (computeEnd cleaned cs start - ov)).map
        (fun rest =>
          if (trimList (jsSubstring cleaned start (computeEnd cleaned cs start))).isEmpty
          then rest
          else trimList (jsSubstring cleaned start (computeEnd cleaned cs start)) :: rest)
    else some []

/-- The function `TextChunker.chunkText`: empty input yields `[]`; cleaned text no longer
than `chunkSize` is returned as a single chunk; otherwise the windowed loop
runs (with fuel). -/
def chunkText (cs ov : Int) (fuel : Nat) (text : List Char) : Option (List (List Char)) :=
  if text.length = 0 then some []
  else
    let cleaned := cleanText text
    if (cleaned.length : Int) ≤ cs then some [cleaned]
    else chunkLoop cleaned cs ov fuel 0

/-- A review as consumed by `TextChunker.chunkReview`: `review_id` and
`stars` may be absent (JavaScript `undefined`). -/
structure Review where
  review_id : Option String
  rtext : List Char
  stars : Option Int

/-- A chunk record emitted by `TextChunker.chunkReview`. -/
structure ChunkRecord where
  reviewId : String
  text : List Char
  chunkIndex : Nat
  stars : Int
deriving DecidableEq

/-- JavaScript `v || d` for an optional string: the default is used when
the value is absent or the empty string (both falsy). -/
def jsOrStr : Option String → String → String
  | some s, d => if s = "" then d else s
  | none, d => d

/-- The `chunks.map((chunk, index) => …)` of `chunkReview`.  The fallback
review id is computed inside the callback, so each chunk draws a fresh
value from the generator `gen` (modelling the per-call
`review_${Date.now()}_${Math.random()}` template). -/
def tagChunks (gen : Nat → String) (rid : Option String) (st : Int) :
    Nat → List (List Char) → List ChunkRecord
  | _, [] => []
  | i, c :: rest => ⟨jsOrStr rid (gen i), c, i, st⟩ :: tagChunks gen rid st (i + 1) rest

/-- The function `TextChunker.chunkReview`: chunk the review's text and tag every chunk
with a review id, its index, and the review's stars (`review.stars || 0`). -/
def chunkReview (gen : Nat → String) (cs ov : Int) (fuel : Nat) (r : Review) :
    Option (List ChunkRecord) :=
  (chunkText cs ov fuel r.rtext).map (tagChunks gen r.review_id (r.stars.getD 0) 0)

/-! ## EmbeddingService (src/src/services/embedding.js) -/

/-- The shape of a parsed JSON response body, as far as
`createEmbedding`'s checks can distinguish it (`Array.isArray` plus the
array's length). -/
inductive JsonBody where
  | arr (elems : List ℚ)
  | num (q : ℚ)
  | str (s : String)
  | obj
  | nullv
deriving DecidableEq

/-- An HTTP response from the inference endpoint. -/
structure HttpResp where
  ok : Bool
  status : Nat
  body : JsonBody
deriving DecidableEq

/-- The errors `createEmbedding` can throw: an HTTP error status, or a
response body that is not an array of exactly 384 numbers. -/
inductive EmbError where
  | httpError (status : Nat)
  | malformed
deriving DecidableEq

/-- The function `EmbeddingService.createEmbedding`, as a function of the response the
external service produced for the request: a non-ok response throws, an
array body of length exactly 384 is returned, anything else throws. -/
def createEmbedding (resp : HttpResp) : Except EmbError (List ℚ) :=
  if resp.ok then
    match resp.body with
    | .arr l => if l.length = 384 then .ok l else .error .malformed
    | _ => .error .malformed
  else .error (.httpError resp.status)

/-- The loop of `EmbeddingService.createBatchEmbeddings`.  The oracle maps
the (0-based) index of each HTTP call made so far to the response the
service returns for it; `k` is the number of calls already made.  Each
text is attempted once; on failure it is retried exactly once, and if the
retry also fails the whole batch fails with that error. -/
def batchGo (oracle : Nat → HttpResp) : List String → Nat → Except EmbError (List (List ℚ))
  | [], _ => .ok []
  | _ :: ts, k =>
    match createEmbedding (oracle k) with
    | .ok e => (batchGo oracle ts (k + 1)).map (fun rest => e :: rest)
    | .error _ =>
      match createEmbedding (oracle (k + 1)) with
      | .ok e => (batchGo oracle ts (k + 2)).map (fun rest => e :: rest)
      | .error e2 => .error e2

/-- The function `EmbeddingService.createBatchEmbeddings` (the batch starts with
no calls made). -/
def createBatchEmbeddings (oracle : Nat → HttpResp) (texts : List String) :
    Except EmbError (List (List ℚ)) :=
  batchGo oracle texts 0

/-! ## Vector store: `search_similar_reviews` (src/unnamed/part_001,
called by `VectorStore.searchSimilar` in src/src/services/vectorStore.js) -/

/-- A row of the `review_chunks` table.  The embedding itself lives in the
external database; its cosine distance to the query vector is supplied by
the `dist` parameter of `search_similar_reviews` below. -/
structure ChunkRow where
  id : Nat
  review_id : String
  chunk_text : List Char
  chunk_index : Nat
  stars : Int
deriving DecidableEq

/-- A row of the result set of `search_similar_reviews`. -/
structure SimilarHit where
  id : Nat
  review_id : String
  chunk_text : List Char
  chunk_index : Nat
  stars : Int
  similarity : ℚ
deriving DecidableEq

/-- The SQL function `search_similar_reviews`: `dist r` models the pgvector
expression `r.embedding <=> query_embedding` (cosine distance, computed by
the external database extension).  Rows with
`1 - dist > match_threshold` are kept, ordered by ascending distance
(`ORDER BY embedding <=> query_embedding`), capped at `match_count`, and
reported with `similarity = 1 - dist`. -/
def search_similar_reviews (dist : ChunkRow → ℚ) (rows : List ChunkRow)
    (match_threshold : ℚ) (match_count : Nat) : List SimilarHit :=
  (((rows.filter (fun r => decide (match_threshold < 1 - dist r))).insertionSort
      (fun a b => dist a ≤ dist b)).map
    (fun r => ⟨r.id, r.review_id, r.chunk_text, r.chunk_index, r.stars, 1 - dist r⟩)).take
    match_count

/-! ## Hybrid search merge -/

/-- A merged hybrid search result with both component scores attached. -/
structure SearchResult where
  chunkId : Nat
  semanticScore : ℚ
  keywordScore : ℚ
  combinedScore : ℚ
deriving DecidableEq

/-- The score recorded for `cid` in a hit list, `0` when `cid` is absent. -/
def scoreOf (hits : List (Nat × ℚ)) (cid : Nat) : ℚ := (hits.lookup cid).getD 0

/-- The chunkIds present in the union of the two hit sets. -/
def unionIds (sem kwh : List (Nat × ℚ)) : List Nat :=
  (sem.map Prod.fst ++ kwh.map Prod.fst).dedup

/-- Modelled from the spec: the merged entry for one chunkId —
`combinedScore = semanticWeight*semanticScore + keywordWeight*keywordScore`
(missing score treated as 0) renormalized by
`(semanticWeight + keywordWeight)`.  The repository's hybrid search
component (`hybrid_search_service.py`, named in the README) is not among
the source files, so this follows §4.4 of the specification. -/
def mkResult (sw kw : ℚ) (sem kwh : List (Nat × ℚ)) (cid : Nat) : SearchResult :=
  ⟨cid, scoreOf sem cid, scoreOf kwh cid,
    (sw * scoreOf sem cid + kw * scoreOf kwh cid) / (sw + kw)⟩

/-- Modelled from the spec: the merge ordering — descending
`combinedScore`, ties broken by descending `semanticScore`, then by
ascending chunkId. -/
def resultLE (a b : SearchResult) : Prop :=
  b.combinedScore < a.combinedScore ∨
    (a.combinedScore = b.combinedScore ∧
      (b.semanticScore < a.semanticScore ∨
        (a.semanticScore = b.semanticScore ∧ a.chunkId ≤ b.chunkId)))

instance : DecidableRel resultLE := fun a b => by
  unfold resultLE
  infer_instance

instance : IsTotal SearchResult resultLE where
  total a b := by
    unfold resultLE
    rcases lt_trichotomy a.combinedScore b.combinedScore with h | h | h
    · exact Or.inr (Or.inl h)
    · rcases lt_trichotomy a.semanticScore b.semanticScore with h2 | h2 | h2
      · exact Or.inr (Or.inr ⟨h.symm, Or.inl h2⟩)
      · rcases Nat.le_total a.chunkId b.chunkId with h3 | h3
        · exact Or.inl (Or.inr ⟨h, Or.inr ⟨h2, h3⟩⟩)
        · exact Or.inr (Or.inr ⟨h.symm, Or.inr ⟨h2.symm, h3⟩⟩)
      · exact Or.inl (Or.inr ⟨h, Or.inl h2⟩)
    · exact Or.inl (Or.inl h)

instance : IsTrans SearchResult resultLE where
  trans a b c hab hbc := by
    unfold resultLE at hab hbc ⊢
    rcases hab with h1 | ⟨h1, hab⟩
    · rcases hbc with h2 | ⟨h2, _⟩
      · exact Or.inl (lt_trans h2 h1)
      · exact Or.inl (h2 ▸ h1)
    · rcases hbc with h2 | ⟨h2, hbc⟩
      · exact Or.inl (h1 ▸ h2)
      · refine Or.inr ⟨h1.trans h2, ?_⟩
        rcases hab with h3 | ⟨h3, hab⟩
        · rcases hbc with h4 | ⟨h4, _⟩
          · exact Or.inl (lt_trans h4 h3)
          · exact Or.inl (h4 ▸ h3)
        · rcases hbc with h4 | ⟨h4, hbc⟩
          · exact Or.inl (h3 ▸ h4)
          · exact Or.inr ⟨h3.trans h4, hab.trans hbc⟩

/-- Modelled from the spec: hybrid merge — for each chunkId in the union
build the weighted entry, then sort by the merge ordering. -/
def hybridMerge (sw kw : ℚ) (sem kwh : List (Nat × ℚ)) : List SearchResult :=
  List.insertionSort resultLE ((unionIds sem kwh).map (mkResult sw kw sem kwh))

/-! ## Concrete inputs used by counterexamples and witnesses -/

/-- The text `"A. "` followed by twenty `B`s (23 characters). -/
def c2text : List Char := 'A' :: '.' :: ' ' :: List.replicate 20 'B'

/-- The set of window start positions the chunking loop cycles through
forever on `c2text` with chunkSize 15 and overlap 10. -/
def c2cycle : List Int := [-8, -16, -11, -19, -14, -9, -17, -12, -20, -15, -10, -18, -13]

/-- A deterministic stand-in for the per-chunk
`review_${Date.now()}_${Math.random()}` fallback: distinct values for
distinct calls. -/
def natGen (i : Nat) : String := String.mk (List.replicate i 'x')

/-- A response oracle whose first call fails with an HTTP error and whose
later calls succeed with a 384-vector. -/
def oracle0 (k : Nat) : HttpResp :=
  if k = 0 then ⟨false, 503, .nullv⟩ else ⟨true, 200, .arr (List.replicate 384 0)⟩

/-- A concrete distance function for the `search_similar_reviews` witness. -/
def dist0 : ChunkRow → ℚ := fun _ => 1 / 10

/-- A concrete row list for the `search_similar_reviews` witness. -/
def rows0 : List ChunkRow := [⟨1, "r", [], 0, 5⟩]

/-! ## Lemmas about the chunker -/

lemma lastIndexOf_eq_neg_one_or_nonneg (s t : List Char) :
    lastIndexOf s t = -1 ∨ 0 ≤ lastIndexOf s t := by
  unfold lastIndexOf
  cases h : ((List.range (s.length + 1)).filter
      (fun i => decide ((s.drop i).take t.length = t))).getLast? with
  | none => exact Or.inl rfl
  | some i => exact Or.inr (Int.natCast_nonneg i)

lemma computeEnd_progress (cleaned : List Char) {cs ov : Int} (hov : 0 ≤ ov)
    (hcs : ov + 100 ≤ cs) (start : Int) :
    start + ov < computeEnd cleaned cs start := by
  have hmax : start + cs - 100 ≤ max (start + cs - 100) start := le_max_left _ _
  unfold computeEnd
  split
  · split
    · omega
    · split
      · omega
      · rename_i m hm hidx
        rcases lastIndexOf_eq_neg_one_or_nonneg
            (jsSubstring cleaned (max (start + cs - 100) start) (start + cs)) m with h | h
        · exact absurd h hidx
        · omega
  · omega

lemma mem_jsSubstring (s : List Char) {a b : Int} {i : Nat} (hi : i < s.length)
    (ha : 0 ≤ a) (hai : a ≤ (i : Int)) (hib : (i : Int) < b) :
    s.get ⟨i, hi⟩ ∈ jsSubstring s a b := by
  simp only [jsSubstring]
  have hin : (i : Int) < (s.length : Int) := by exact_mod_cast hi
  set A := min (max a 0) (s.length : Int) with hA
  set B := min (max b 0) (s.length : Int) with hB
  have hlo : (min A B).toNat = a.toNat := by omega
  have hhi : i < (max A B).toNat := by omega
  have hhi2 : (max A B).toNat ≤ s.length := by omega
  rw [hlo]
  have hj : i - a.toNat < ((s.take (max A B).toNat).drop a.toNat).length := by
    simp only [List.length_drop, List.length_take]
    omega
  have hgot : ((s.take (max A B).toNat).drop a.toNat).get ⟨i - a.toNat, hj⟩ = s.get ⟨i, hi⟩ := by
    simp only [List.get_eq_getElem, List.getElem_drop, List.getElem_take]
    congr 1
    omega
  rw [← hgot]
  exact List.get_mem _ _ _

lemma mem_dropWhile_of_neg {c : Char} {l : List Char} (hc : isJsWs c = false) (hm : c ∈ l) :
    c ∈ l.dropWhile isJsWs := by
  have hsplit := List.takeWhile_append_dropWhile (p := isJsWs) (l := l)
  rw [← hsplit] at hm
  rcases List.mem_append.mp hm with h | h
  · have := List.mem_takeWhile_imp h
    simp [hc] at this
  · exact h

lemma mem_trimList {c : Char} (hc : isJsWs c = false) {l : List Char} (hm : c ∈ l) :
    c ∈ trimList l := by
  unfold trimList
  rw [List.mem_reverse]
  exact mem_dropWhile_of_neg hc (by rw [List.mem_reverse]; exact mem_dropWhile_of_neg hc hm)

lemma chunkLoop_terminates_covers (cleaned : List Char) {cs ov : Int} (hov : 0 ≤ ov)
    (hcs : ov + 100 ≤ cs) :
    ∀ (fuel : Nat) (start : Int), 0 ≤ start →
      (cleaned.length : Int) - start ≤ fuel →
      ∃ res, chunkLoop cleaned cs ov fuel start = some res ∧
        ∀ (i : Nat) (hi : i < cleaned.length), start ≤ (i : Int) →
          isJsWs (cleaned.get ⟨i, hi⟩) = false →
          ∃ ch ∈ res, cleaned.get ⟨i, hi⟩ ∈ ch := by
  intro fuel
  induction fuel with
  | zero =>
    intro start h0 hf
    refine ⟨[], ?_, ?_⟩
    · simp only [chunkLoop]
      rw [if_neg (by omega)]
    · intro i hi hsi _
      have : (i : Int) < (cleaned.length : Int) := by exact_mod_cast hi
      omega
  | succ n ih =>
    intro start h0 hf
    by_cases hlt : start < (cleaned.length : Int)
    · have hprog := computeEnd_progress cleaned hov hcs start
      obtain ⟨res, hres, hcov⟩ :=
        ih (computeEnd cleaned cs start - ov) (by omega) (by omega)
      refine ⟨if (trimList (jsSubstring cleaned start (computeEnd cleaned cs start))).isEmpty
          then res
          else trimList (jsSubstring cleaned start (computeEnd cleaned cs start)) :: res,
        ?_, ?_⟩
      · simp only [chunkLoop]
        rw [if_pos hlt, hres]
        rfl
      · intro i hi hsi hnws
        by_cases hie : computeEnd cleaned cs start - ov ≤ (i : Int)
        · obtain ⟨ch, hch1, hch2⟩ := hcov i hi hie hnws
          refine ⟨ch, ?_, hch2⟩
          split
          · exact hch1
          · exact List.mem_cons_of_mem _ hch1
        · have hmem : cleaned.get ⟨i, hi⟩ ∈
              trimList (jsSubstring cleaned start (computeEnd cleaned cs start)) := by
            apply mem_trimList hnws
            exact mem_jsSubstring cleaned hi h0 hsi (by omega)
          have hne : (trimList (jsSubstring cleaned start (computeEnd cleaned cs start))).isEmpty
              = false := by
            cases hemp : (trimList (jsSubstring cleaned start (computeEnd cleaned cs start))).isEmpty
            · rfl
            · exact absurd (List.isEmpty_iff.mp hemp) (List.ne_nil_of_mem hmem)
          refine ⟨trimList (jsSubstring cleaned start (computeEnd cleaned cs start)), ?_, hmem⟩
          rw [if_neg (by simp [hne])]
          exact List.mem_cons_self _ _
    · refine ⟨[], ?_, ?_⟩
      · simp only [chunkLoop]
        rw [if_neg hlt]
      · intro i hi hsi _
        have : (i : Int) < (cleaned.length : Int) := by exact_mod_cast hi
        omega

lemma collapseAux_length_le : ∀ (b : Bool) (l : List Char), (collapseAux b l).length ≤ l.length := by
  intro b l
  induction l generalizing b with
  | nil => simp [collapseAux]
  | cons c rest ih =>
    simp only [collapseAux]
    split
    · split
      · exact le_trans (ih true) (Nat.le_succ _)
      · simp only [List.length_cons]
        exact Nat.succ_le_succ (ih true)
    · simp only [List.length_cons]
      exact Nat.succ_le_succ (ih false)

lemma trimList_length_le (l : List Char) : (trimList l).length ≤ l.length := by
  unfold trimList
  calc (((l.dropWhile isJsWs).reverse.dropWhile isJsWs).reverse).length
      = ((l.dropWhile isJsWs).reverse.dropWhile isJsWs).length := List.length_reverse _
    _ ≤ (l.dropWhile isJsWs).reverse.length := (List.dropWhile_sublist _).length_le
    _ = (l.dropWhile isJsWs).length := List.length_reverse _
    _ ≤ l.length := (List.dropWhile_sublist _).length_le

lemma cleanText_length_le (l : List Char) : (cleanText l).length ≤ l.length :=
  le_trans (collapseAux_length_le false (trimList l)) (trimList_length_le l)

lemma chunkLoop_no_nil (cleaned : List Char) (cs ov : Int) :
    ∀ (fuel : Nat) (start : Int) (res : List (List Char)),
      chunkLoop cleaned cs ov fuel start = some res → [] ∉ res := by
  intro fuel
  induction fuel with
  | zero =>
    intro start res h
    simp only [chunkLoop] at h
    split at h
    · exact absurd h (by simp)
    · injection h with h
      subst h
      simp
  | succ n ih =>
    intro start res h
    simp only [chunkLoop] at h
    split at h
    · cases hrec : chunkLoop cleaned cs ov n (computeEnd cleaned cs start - ov) with
      | none =>
        rw [hrec] at h
        simp at h
      | some rest =>
        rw [hrec, Option.map_some'] at h
        injection h with h
        subst h
        intro hmem
        split at hmem
        · exact ih _ _ hrec hmem
        · rcases List.mem_cons.mp hmem with h2 | h2
          · rename_i hemp
            rw [← h2] at hemp
            simp at hemp
          · exact ih _ _ hrec h2
    · injection h with h
      subst h
      simp

/-! ## Claim theorems for the chunker -/

/-- Claim C2 (code_bug): the spec asserts that for overlap < chunk length
every loop iteration strictly advances the window start so `chunkText`
terminates, and the code's own guard comment claims to prevent infinite
loops; but with chunkSize 15 and overlap 10 (overlap < chunkSize) on the
23-character text `"A. " + "B"*20` the loop runs forever — the first
iteration moves `start` from 0 to −8 and the loop then cycles through 13
negative start values without ever reaching the exit condition.  In the
fuel model: no amount of fuel makes the loop finish. -/
theorem chunkText_c2_nonterminating : ∀ fuel : Nat, chunkText 15 10 fuel c2text = none := by
  have key : ∀ (fuel : Nat), ∀ s ∈ c2cycle, chunkLoop c2text 15 10 fuel s = none := by
    intro fuel
    induction fuel with
    | zero =>
      intro s hs
      simp only [c2cycle, List.mem_cons, List.not_mem_nil, or_false] at hs
      rcases hs with rfl | rfl | rfl | rfl | rfl | rfl | rfl | rfl | rfl | rfl | rfl | rfl | rfl <;>
        rfl
    | succ n ih =>
      intro s hs
      simp only [c2cycle, List.mem_cons, List.not_mem_nil, or_false] at hs
      rcases hs with rfl | rfl | rfl | rfl | rfl | rfl | rfl | rfl | rfl | rfl | rfl | rfl | rfl <;>
        exact Option.map_eq_none'.mpr (ih _ (by decide))
  intro fuel
  have h1 : chunkText 15 10 fuel c2text = chunkLoop c2text 15 10 fuel 0 := by
    have hclean : cleanText c2text = c2text := by decide
    simp only [chunkText]
    rw [if_neg (by decide), hclean, if_neg (by decide)]
  rw [h1]
  cases fuel with
  | zero => rfl
  | succ n => exact Option.map_eq_none'.mpr (key n _ (by decide))

/-- Claim C4 (counterexample): the empty input has length at most the
chunk size yet `chunkText` returns an empty list, not one chunk equal to
the cleaned input. -/
theorem chunkText_empty_cex :
    (([] : List Char).length : Int) ≤ 500 ∧
    chunkText 500 50 1000 [] = some [] ∧
    ([] : List (List Char)) ≠ [cleanText []] := by
  refine ⟨by decide, by rfl, by decide⟩

/-- Claim C4 (amended): for every nonempty input text whose length is at
most the configured maximum chunk length, `chunkText` returns exactly one
chunk, equal to the trimmed, whitespace-collapsed input. -/
theorem chunkText_short (cs ov : Int) (fuel : Nat) (text : List Char)
    (hne : text ≠ []) (hlen : (text.length : Int) ≤ cs) :
    chunkText cs ov fuel text = some [cleanText text] := by
  have h0 : ¬ text.length = 0 := by simpa [List.length_eq_zero] using hne
  have hcl : ((cleanText text).length : Int) ≤ cs := by
    have h1 := cleanText_length_le text
    have h2 : ((cleanText text).length : Int) ≤ (text.length : Int) := by exact_mod_cast h1
    omega
  simp only [chunkText]
  rw [if_neg h0, if_pos hcl]

/-- Witness for `chunkText_short` at a concrete input. -/
theorem chunkText_short_witness :
    chunkText 500 50 1000 ['h', 'i'] = some [cleanText ['h', 'i']] :=
  chunkText_short 500 50 1000 ['h', 'i'] (by decide) (by decide)

/-- Claim C5 (counterexample): the whitespace-only input `" "` is nonempty,
cleans to the empty string, and `chunkText` returns a one-element list
containing the empty chunk — not an empty sequence, and the emitted chunk
is empty. -/
theorem chunkText_blank_cex :
    chunkText 500 50 1000 [' '] = some [[]] ∧
    cleanText [' '] = [] ∧
    some ([[]] : List (List Char)) ≠ some ([] : List (List Char)) := by
  refine ⟨by rfl, by rfl, by decide⟩

/-- Claim C5 (amended): the genuinely empty input yields an empty sequence;
a nonempty input whose cleaned text is empty yields a single empty-string
chunk (the single-chunk path does not discard it); and when the cleaned
text is nonempty no emitted chunk is ever the empty string. -/
theorem chunkText_empty_and_blank :
    (∀ (cs ov : Int) (fuel : Nat), chunkText cs ov fuel [] = some []) ∧
    (∀ (cs ov : Int) (fuel : Nat) (text : List Char), text ≠ [] → cleanText text = [] →
      0 ≤ cs → chunkText cs ov fuel text = some [[]]) ∧
    (∀ (cs ov : Int) (fuel : Nat) (text : List Char) (res : List (List Char)),
      cleanText text ≠ [] → chunkText cs ov fuel text = some res → [] ∉ res) := by
  refine ⟨?_, ?_, ?_⟩
  · intro cs ov fuel
    simp [chunkText]
  · intro cs ov fuel text hne hcl hcs
    have h0 : ¬ text.length = 0 := by simpa [List.length_eq_zero] using hne
    simp only [chunkText]
    rw [if_neg h0, hcl]
    rw [if_pos (by simpa using hcs)]
  · intro cs ov fuel text res hne h
    by_cases h0 : text.length = 0
    · have : text = [] := List.length_eq_zero.mp h0
      subst this
      exact absurd rfl hne
    · by_cases hshort : ((cleanText text).length : Int) ≤ cs
      · simp only [chunkText] at h
        rw [if_neg h0, if_pos hshort] at h
        injection h with h
        subst h
        intro hmem
        rcases List.mem_cons.mp hmem with h2 | h2
        · exact hne h2.symm
        · simp at h2
      · simp only [chunkText] at h
        rw [if_neg h0, if_neg hshort] at h
        exact chunkLoop_no_nil _ _ _ _ _ _ h

/-- Witness for `chunkText_empty_and_blank` at concrete inputs. -/
theorem chunkText_empty_and_blank_witness :
    chunkText 500 50 1000 [] = some [] ∧ chunkText 300 50 7 [' ', '\t'] = some [[]] :=
  ⟨chunkText_empty_and_blank.1 500 50 1000,
   chunkText_empty_and_blank.2.1 300 50 7 [' ', '\t'] (by decide) (by decide) (by decide)⟩

/-- Claim C6 (counterexample): with chunkSize 1 and overlap 0
(overlap < chunkSize) on the already-clean text `"a b"`, the emitted
chunks are `["a", "b"]` — the space character of the cleaned input appears
in none of them (the middle window `" "` is trimmed to nothing and
discarded). -/
theorem chunkText_space_cex :
    (0 : Int) < 1 ∧
    chunkText 1 0 10 ['a', ' ', 'b'] = some [['a'], ['b']] ∧
    cleanText ['a', ' ', 'b'] = ['a', ' ', 'b'] ∧
    ' ' ∉ ['a'] ∧ ' ' ∉ ['b'] := by
  refine ⟨by decide, by rfl, by rfl, by decide, by decide⟩

/-- Claim C6 (amended): when 0 ≤ overlap and overlap + 100 ≤ chunkSize —
the regime in which the up-to-100-character sentence-boundary backtrack
cannot defeat forward progress (it includes the repository's
configurations (500, 50) and (300, 50)) — `chunkText` terminates within
fuel equal to the cleaned length, and every non-whitespace character of
the cleaned input appears in at least one emitted chunk.  (Whitespace
characters at window edges are trimmed away and may appear in no chunk,
as the counterexample shows.) -/
theorem chunkText_covers (cs ov : Int) (fuel : Nat) (text : List Char)
    (hov : 0 ≤ ov) (hcs : ov + 100 ≤ cs) (hfuel : (cleanText text).length ≤ fuel) :
    ∃ res, chunkText cs ov fuel text = some res ∧
      ∀ (i : Nat) (hi : i < (cleanText text).length),
        isJsWs ((cleanText text).get ⟨i, hi⟩) = false →
        ∃ ch ∈ res, (cleanText text).get ⟨i, hi⟩ ∈ ch := by
  by_cases h0 : text.length = 0
  · have htext : text = [] := List.length_eq_zero.mp h0
    subst htext
    refine ⟨[], by simp [chunkText], ?_⟩
    intro i hi
    simp [cleanText, trimList, collapseWs, collapseAux] at hi
  · by_cases hshort : ((cleanText text).length : Int) ≤ cs
    · refine ⟨[cleanText text], ?_, ?_⟩
      · simp only [chunkText]
        rw [if_neg h0, if_pos hshort]
      · intro i hi _
        exact ⟨cleanText text, List.mem_cons_self _ _, List.get_mem _ _ _⟩
    · obtain ⟨res, hres, hcov⟩ :=
        chunkLoop_terminates_covers (cleanText text) hov hcs fuel 0 le_rfl
          (by
            have : ((cleanText text).length : Int) ≤ (fuel : Int) := by exact_mod_cast hfuel
            omega)
      refine ⟨res, ?_, ?_⟩
      · simp only [chunkText]
        rw [if_neg h0, if_neg hshort]
        exact hres
      · intro i hi hnws
        exact hcov i hi (Int.natCast_nonneg i) hnws

/-- Witness for `chunkText_covers` at a concrete input. -/
theorem chunkText_covers_witness :
    ∃ res, chunkText 300 50 5 ['o', 'k'] = some res ∧
      ∀ (i : Nat) (hi : i < (cleanText ['o', 'k']).length),
        isJsWs ((cleanText ['o', 'k']).get ⟨i, hi⟩) = false →
        ∃ ch ∈ res, (cleanText ['o', 'k']).get ⟨i, hi⟩ ∈ ch :=
  chunkText_covers 300 50 5 ['o', 'k'] (by decide) (by decide) (by decide)

/-! ## Lemmas and claim theorems for `chunkReview` -/

lemma tagChunks_get (gen : Nat → String) (rid : Option String) (st : Int) :
    ∀ (l : List (List Char)) (i j : Nat) (hj : j < (tagChunks gen rid st i l).length),
      ((tagChunks gen rid st i l).get ⟨j, hj⟩).chunkIndex = i + j := by
  intro l
  induction l with
  | nil =>
    intro i j hj
    simp [tagChunks] at hj
  | cons c rest ih =>
    intro i j hj
    cases j with
    | zero => rfl
    | succ j' =>
      have := ih (i + 1) j' (by simpa [tagChunks, Nat.succ_lt_succ_iff] using hj)
      simp only [tagChunks, List.get_eq_getElem, List.getElem_cons_succ] at this ⊢
      omega

lemma tagChunks_reviewId (gen : Nat → String) (s : String) (st : Int) (hs : s ≠ "") :
    ∀ (l : List (List Char)) (i : Nat) (c : ChunkRecord),
      c ∈ tagChunks gen (some s) st i l → c.reviewId = s := by
  intro l
  induction l with
  | nil =>
    intro i c hc
    simp [tagChunks] at hc
  | cons ch rest ih =>
    intro i c hc
    rcases List.mem_cons.mp hc with h | h
    · subst h
      simp [jsOrStr, hs]
    · exact ih (i + 1) c h

lemma tagChunks_stars (gen : Nat → String) (rid : Option String) (st : Int) :
    ∀ (l : List (List Char)) (i : Nat) (c : ChunkRecord),
      c ∈ tagChunks gen rid st i l → c.stars = st := by
  intro l
  induction l with
  | nil =>
    intro i c hc
    simp [tagChunks] at hc
  | cons ch rest ih =>
    intro i c hc
    rcases List.mem_cons.mp hc with h | h
    · subst h
      rfl
    · exact ih (i + 1) c h

/-- Claim C7 (counterexample): a review without a `review_id` whose text
splits into two chunks gets a fresh fallback id for each chunk (the
fallback expression runs inside the `map` callback), so the two emitted
chunks carry different reviewIds. -/
theorem chunkReview_fallback_cex :
    (chunkReview natGen 5 0 7 ⟨none, List.replicate 7 'a', some 3⟩).map
        (fun l => l.map ChunkRecord.reviewId) = some ["", "x"] ∧
    ("" : String) ≠ "x" := by
  refine ⟨by rfl, by decide⟩

/-- Claim C7 (amended): the chunkIndex values of the records emitted by
`chunkReview` form the contiguous sequence 0, 1, 2, … in emission order,
and all records carry the review's own reviewId provided the review has a
non-empty `review_id`; when `review_id` is absent or empty, each chunk
instead draws a fresh generated fallback id, which need not agree across
chunks. -/
theorem chunkReview_spec (gen : Nat → String) (cs ov : Int) (fuel : Nat) (r : Review)
    (res : List ChunkRecord) (h : chunkReview gen cs ov fuel r = some res) :
    (∀ (j : Nat) (hj : j < res.length), (res.get ⟨j, hj⟩).chunkIndex = j) ∧
    (∀ s : String, r.review_id = some s → s ≠ "" → ∀ c ∈ res, c.reviewId = s) := by
  simp only [chunkReview] at h
  cases hct : chunkText cs ov fuel r.rtext with
  | none =>
    rw [hct] at h
    simp at h
  | some chunks =>
    rw [hct, Option.map_some'] at h
    injection h with h
    subst h
    constructor
    · intro j hj
      have := tagChunks_get gen r.review_id (r.stars.getD 0) chunks 0 j hj
      simpa using this
    · intro s hs hne c hc
      rw [hs] at hc
      exact tagChunks_reviewId gen s (r.stars.getD 0) hne chunks 0 c hc

/-- Witness for `chunkReview_spec` at a concrete review. -/
theorem chunkReview_spec_witness :
    (∀ (j : Nat) (hj : j < [ChunkRecord.mk "r1" ['h', 'i'] 0 4].length),
      (([ChunkRecord.mk "r1" ['h', 'i'] 0 4]).get ⟨j, hj⟩).chunkIndex = j) ∧
    (∀ s : String, (Review.mk (some "r1") ['h', 'i'] (some 4)).review_id = some s → s ≠ "" →
      ∀ c ∈ [ChunkRecord.mk "r1" ['h', 'i'] 0 4], c.reviewId = s) :=
  chunkReview_spec natGen 500 50 9 ⟨some "r1", ['h', 'i'], some 4⟩
    [ChunkRecord.mk "r1" ['h', 'i'] 0 4] (by rfl)

/-- Claim C10 (counterexample): a review whose `stars` field is absent
yields chunk records with `stars = 0`, which is outside 1–5
(`review.stars || 0` supplies 0, and nothing validates the range). -/
theorem chunkReview_stars_cex :
    (chunkReview natGen 500 50 1 ⟨some "r", ['h', 'i'], none⟩).map
        (fun l => l.map ChunkRecord.stars) = some [0] ∧
    ¬ ((1 : Int) ≤ 0) := by
  refine ⟨by rfl, by decide⟩

/-- Claim C10 (amended): `chunkReview` copies the review's star rating into
every emitted chunk (defaulting to 0 when the review has none), so every
emitted chunk's stars lie in 1–5 exactly when the review's stars do; the
function itself does not enforce the range. -/
theorem chunkReview_stars_range (gen : Nat → String) (cs ov : Int) (fuel : Nat) (r : Review)
    (res : List ChunkRecord) (s : Int) (hs : r.stars = some s) (h1 : 1 ≤ s) (h5 : s ≤ 5)
    (h : chunkReview gen cs ov fuel r = some res) :
    ∀ c ∈ res, 1 ≤ c.stars ∧ c.stars ≤ 5 := by
  simp only [chunkReview] at h
  cases hct : chunkText cs ov fuel r.rtext with
  | none =>
    rw [hct] at h
    simp at h
  | some chunks =>
    rw [hct, Option.map_some'] at h
    injection h with h
    subst h
    intro c hc
    have := tagChunks_stars gen r.review_id (r.stars.getD 0) chunks 0 c hc
    rw [hs] at this
    simp only [Option.getD_some] at this
    omega

/-- Witness for `chunkReview_stars_range` at a concrete review and chunk. -/
theorem chunkReview_stars_range_witness :
    (1 : Int) ≤ (ChunkRecord.mk "r2" ['h', 'i'] 0 5).stars ∧
    (ChunkRecord.mk "r2" ['h', 'i'] 0 5).stars ≤ 5 :=
  chunkReview_stars_range natGen 500 50 3 ⟨some "r2", ['h', 'i'], some 5⟩
    [ChunkRecord.mk "r2" ['h', 'i'] 0 5] 5 rfl (by decide) (by decide) (by rfl)
    (ChunkRecord.mk "r2" ['h', 'i'] 0 5) (List.mem_cons_self _ _)

/-! ## Claim theorems for the embedding service -/

/-- Claim C8: `createEmbedding` returns the response body exactly when it
is an array of length exactly 384 (given a successful HTTP exchange): a
returned vector always came from such a body, such a body is always
returned, and any body of a different shape or length makes the call fail
with an error rather than return a value. -/
theorem createEmbedding_spec (resp : HttpResp) :
    (∀ v, createEmbedding resp = .ok v → resp.body = .arr v ∧ v.length = 384) ∧
    (resp.ok = true → ∀ l, resp.body = .arr l → l.length = 384 →
      createEmbedding resp = .ok l) ∧
    ((¬ ∃ l, resp.body = .arr l ∧ l.length = 384) →
      ∃ e, createEmbedding resp = .error e) := by
  obtain ⟨ok, status, body⟩ := resp
  refine ⟨?_, ?_, ?_⟩
  · intro v hv
    cases ok
    · simp [createEmbedding] at hv
    · cases body with
      | arr l =>
        by_cases hl : l.length = 384
        · simp only [createEmbedding, if_pos rfl, if_pos hl] at hv
          injection hv with hv
          subst hv
          exact ⟨rfl, hl⟩
        · simp [createEmbedding, hl] at hv
      | num q => simp [createEmbedding] at hv
      | str s => simp [createEmbedding] at hv
      | obj => simp [createEmbedding] at hv
      | nullv => simp [createEmbedding] at hv
  · intro hok l hbody hlen
    subst hok
    subst hbody
    simp [createEmbedding, hlen]
  · intro hnot
    cases ok
    · exact ⟨.httpError status, by simp [createEmbedding]⟩
    · cases body with
      | arr l =>
        by_cases hl : l.length = 384
        · exact absurd ⟨l, rfl, hl⟩ hnot
        · exact ⟨.malformed, by simp [createEmbedding, hl]⟩
      | num q => exact ⟨.malformed, by simp [createEmbedding]⟩
      | str s => exact ⟨.malformed, by simp [createEmbedding]⟩
      | obj => exact ⟨.malformed, by simp [createEmbedding]⟩
      | nullv => exact ⟨.malformed, by simp [createEmbedding]⟩

/-- Witness for `createEmbedding_spec` at a concrete response. -/
theorem createEmbedding_spec_witness :
    createEmbedding ⟨true, 200, .arr (List.replicate 384 0)⟩ = .ok (List.replicate 384 0) ∧
    (List.replicate 384 (0 : ℚ)).length = 384 :=
  ⟨(createEmbedding_spec ⟨true, 200, .arr (List.replicate 384 0)⟩).2.1 rfl
      (List.replicate 384 0) rfl (by simp),
   by simp⟩

lemma batchGo_length (oracle : Nat → HttpResp) :
    ∀ (texts : List String) (k : Nat) (out : List (List ℚ)),
      batchGo oracle texts k = .ok out → out.length = texts.length := by
  intro texts
  induction texts with
  | nil =>
    intro k out h
    simp only [batchGo] at h
    injection h with h
    subst h
    rfl
  | cons t ts ih =>
    intro k out h
    simp only [batchGo] at h
    cases h1 : createEmbedding (oracle k) with
    | ok e =>
      rw [h1] at h
      cases h2 : batchGo oracle ts (k + 1) with
      | ok rest =>
        rw [h2] at h
        simp only [Except.map] at h
        injection h with h
        subst h
        simp [ih (k + 1) rest h2]
      | error err =>
        rw [h2] at h
        simp [Except.map] at h
    | error err =>
      rw [h1] at h
      cases h2 : createEmbedding (oracle (k + 1)) with
      | ok e =>
        rw [h2] at h
        cases h3 : batchGo oracle ts (k + 2) with
        | ok rest =>
          rw [h3] at h
          simp only [Except.map] at h
          injection h with h
          subst h
          simp [ih (k + 2) rest h3]
        | error err2 =>
          rw [h3] at h
          simp [Except.map] at h
      | error err2 =>
        rw [h2] at h
        simp at h

/-- Claim C9: a successful batch returns exactly one embedding per input
text, in input order (each item's accepted embedding is consed in front of
the remaining items' results); a first-attempt failure on an item is
retried exactly once (the item consumes exactly two responses and the
batch continues from the third); and when the retry also fails the whole
batch call fails with that error rather than returning a shorter or
reordered result. -/
theorem createBatchEmbeddings_spec :
    (∀ (oracle : Nat → HttpResp) (texts : List String) (out : List (List ℚ)),
      createBatchEmbeddings oracle texts = .ok out → out.length = texts.length) ∧
    (∀ (oracle : Nat → HttpResp) (t : String) (ts : List String) (k : Nat) (e : List ℚ),
      createEmbedding (oracle k) = .ok e →
      batchGo oracle (t :: ts) k = (batchGo oracle ts (k + 1)).map (fun rest => e :: rest)) ∧
    (∀ (oracle : Nat → HttpResp) (t : String) (ts : List String) (k : Nat)
        (err : EmbError) (e : List ℚ),
      createEmbedding (oracle k) = .error err →
      createEmbedding (oracle (k + 1)) = .ok e →
      batchGo oracle (t :: ts) k = (batchGo oracle ts (k + 2)).map (fun rest => e :: rest)) ∧
    (∀ (oracle : Nat → HttpResp) (t : String) (ts : List String) (k : Nat)
        (err1 err2 : EmbError),
      createEmbedding (oracle k) = .error err1 →
      createEmbedding (oracle (k + 1)) = .error err2 →
      batchGo oracle (t :: ts) k = .error err2) := by
  refine ⟨?_, ?_, ?_, ?_⟩
  · intro oracle texts out h
    exact batchGo_length oracle texts 0 out h
  · intro oracle t ts k e h1
    simp [batchGo, h1]
  · intro oracle t ts k err e h1 h2
    simp [batchGo, h1, h2]
  · intro oracle t ts k err1 err2 h1 h2
    simp [batchGo, h1, h2]

/-- Witness for `createBatchEmbeddings_spec`: with an oracle whose first
response fails and whose later responses succeed, the one-text batch
retries once, succeeds, and returns one embedding for the one input. -/
theorem createBatchEmbeddings_spec_witness :
    batchGo oracle0 ["a"] 0 =
      (batchGo oracle0 [] 2).map (fun rest => List.replicate 384 (0 : ℚ) :: rest) ∧
    ([List.replicate 384 (0 : ℚ)]).length = (["a"] : List String).length :=
  ⟨createBatchEmbeddings_spec.2.2.1 oracle0 "a" [] 0 (.httpError 503)
      (List.replicate 384 0) (by rfl) (by rfl),
   createBatchEmbeddings_spec.1 oracle0 ["a"] [List.replicate 384 0] (by rfl)⟩

/-! ## Claim theorem for `search_similar_reviews` -/

/-- Claim C3: for every query (encoded by its per-row cosine distance),
threshold and limit, `search_similar_reviews` returns only hits whose
similarity (1 − cosine distance) is strictly greater than the threshold,
ordered by descending similarity, with at most `match_count` results; in
particular with threshold 0.7 no returned hit has similarity ≤ 0.7. -/
theorem search_similar_spec (dist : ChunkRow → ℚ) (rows : List ChunkRow)
    (t : ℚ) (n : Nat) :
    (∀ h ∈ search_similar_reviews dist rows t n, t < h.similarity) ∧
    List.Sorted (fun a b : SimilarHit => b.similarity ≤ a.similarity)
      (search_similar_reviews dist rows t n) ∧
    (search_similar_reviews dist rows t n).length ≤ n ∧
    (∀ h ∈ search_similar_reviews dist rows (7 / 10) n, ¬ (h.similarity ≤ 7 / 10)) := by
  have hmem : ∀ (t' : ℚ), ∀ h ∈ search_similar_reviews dist rows t' n, t' < h.similarity := by
    intro t' h hh
    have hh2 : h ∈ ((rows.filter (fun r => decide (t' < 1 - dist r))).insertionSort
        (fun a b => dist a ≤ dist b)).map
        (fun r => (⟨r.id, r.review_id, r.chunk_text, r.chunk_index, r.stars,
          1 - dist r⟩ : SimilarHit)) :=
      (List.take_sublist _ _).subset hh
    obtain ⟨r, hr, hfr⟩ := List.mem_map.mp hh2
    rw [List.mem_insertionSort] at hr
    have hfilter := (List.mem_filter.mp hr).2
    have hlt : t' < 1 - dist r := of_decide_eq_true hfilter
    rw [← hfr]
    exact hlt
  refine ⟨hmem t, ?_, ?_, ?_⟩
  · have hsorted : List.Sorted (fun a b : ChunkRow => dist a ≤ dist b)
        ((rows.filter (fun r => decide (t < 1 - dist r))).insertionSort
          (fun a b => dist a ≤ dist b)) := by
      haveI : IsTotal ChunkRow (fun a b => dist a ≤ dist b) := ⟨fun a b => le_total _ _⟩
      haveI : IsTrans ChunkRow (fun a b => dist a ≤ dist b) :=
        ⟨fun _ _ _ hab hbc => le_trans hab hbc⟩
      exact List.sorted_insertionSort _ _
    have hmap : List.Pairwise (fun a b : SimilarHit => b.similarity ≤ a.similarity)
        (((rows.filter (fun r => decide (t < 1 - dist r))).insertionSort
          (fun a b => dist a ≤ dist b)).map
          (fun r => (⟨r.id, r.review_id, r.chunk_text, r.chunk_index, r.stars,
            1 - dist r⟩ : SimilarHit))) :=
      List.Pairwise.map _ (fun a b hab => by simpa using sub_le_sub_left hab 1) hsorted
    exact List.Pairwise.sublist (List.take_sublist _ _) hmap
  · simp only [search_similar_reviews, List.length_take]
    exact min_le_left _ _
  · intro h hh
    exact not_le.mpr (hmem (7 / 10) h hh)

/-- Witness for `search_similar_spec` at a concrete store: one row at
cosine distance 1/10 (similarity 9/10), threshold 1/2. -/
theorem search_similar_spec_witness :
    ((1 : ℚ) / 2 < (SimilarHit.mk 1 "r" [] 0 5 (9 / 10)).similarity) ∧
    (search_similar_reviews dist0 rows0 (1 / 2) 5).length ≤ 5 := by
  have hres : search_similar_reviews dist0 rows0 (1 / 2) 5 =
      [SimilarHit.mk 1 "r" [] 0 5 (9 / 10)] := by
    norm_num [search_similar_reviews, rows0, dist0, List.insertionSort, List.orderedInsert,
      List.filter_cons]
  exact ⟨(search_similar_spec dist0 rows0 (1 / 2) 5).1 (SimilarHit.mk 1 "r" [] 0 5 (9 / 10))
      (by rw [hres]; exact List.mem_cons_self _ _),
    (search_similar_spec dist0 rows0 (1 / 2) 5).2.2.1⟩

/-! ## Claim theorem for the hybrid merge -/

/-- Claim C1 (spec-modelled): for every pair of weights and every pair of
hit lists, the merged hybrid result contains exactly the chunkIds present
in the union of the two hit sets; every entry's combinedScore equals
`(semanticWeight*semanticScore + keywordWeight*keywordScore)` divided by
`(semanticWeight + keywordWeight)` with a missing component score treated
as 0; and the merged list is sorted by descending combinedScore with ties
broken by descending semanticScore and then ascending chunkId. -/
theorem hybridMerge_spec (sw kw : ℚ) (sem kwh : List (Nat × ℚ)) :
    (∀ r ∈ hybridMerge sw kw sem kwh,
      r.semanticScore = scoreOf sem r.chunkId ∧
      r.keywordScore = scoreOf kwh r.chunkId ∧
      r.combinedScore =
        (sw * scoreOf sem r.chunkId + kw * scoreOf kwh r.chunkId) / (sw + kw)) ∧
    (∀ cid : Nat, (cid ∈ sem.map Prod.fst ∨ cid ∈ kwh.map Prod.fst) ↔
      ∃ r ∈ hybridMerge sw kw sem kwh, r.chunkId = cid) ∧
    List.Sorted resultLE (hybridMerge sw kw sem kwh) := by
  refine ⟨?_, ?_, ?_⟩
  · intro r hr
    rw [hybridMerge, List.mem_insertionSort] at hr
    obtain ⟨cid, _, rfl⟩ := List.mem_map.mp hr
    exact ⟨rfl, rfl, rfl⟩
  · intro cid
    constructor
    · intro hcid
      have hu : cid ∈ unionIds sem kwh :=
        List.mem_dedup.mpr (List.mem_append.mpr hcid)
      refine ⟨mkResult sw kw sem kwh cid, ?_, rfl⟩
      rw [hybridMerge, List.mem_insertionSort]
      exact List.mem_map_of_mem _ hu
    · rintro ⟨r, hr, rfl⟩
      rw [hybridMerge, List.mem_insertionSort] at hr
      obtain ⟨cid', hcid', rfl⟩ := List.mem_map.mp hr
      have := List.mem_dedup.mp hcid'
      exact List.mem_append.mp this
  · exact List.sorted_insertionSort resultLE _

/-- Witness for `hybridMerge_spec` at concrete hit lists: one semantic-only
hit (chunk 1, similarity 9/10) and one keyword-only hit (chunk 2, score
1/2) with equal weights. -/
theorem hybridMerge_spec_witness :
    List.Sorted resultLE (hybridMerge 1 1 [(1, 9 / 10)] [(2, 1 / 2)]) ∧
    (∃ r ∈ hybridMerge 1 1 [(1, 9 / 10)] [(2, 1 / 2)], r.chunkId = 1) :=
  ⟨(hybridMerge_spec 1 1 [(1, 9 / 10)] [(2, 1 / 2)]).2.2,
   ((hybridMerge_spec 1 1 [(1, 9 / 10)] [(2, 1 / 2)]).2.1 1).mp (Or.inl (by simp))⟩

end VectorSearchProj
